import Mathlib

set_option maxHeartbeats 1000000
set_option maxRecDepth 8000

/-
  Verification of the limecc LR(k) parser generator core.

  Shallow embedding of src/lrparser.py and src/src/limecc/grammar.py.
  The modules first.py and rule.py (imported by lrparser.py) are not part of
  the sources; the few facts needed about them are modelled from the spec and
  from the doctests embedded in lrparser.py, and are marked as such.
-/

namespace Limecc

/-- Grammar symbols are strings, as in the Python source. -/
abbrev Sym := String

/-- A production rule: left non-terminal and right-hand side
    (the Rule class used by lrparser.py).  Semantic actions are opaque
    callables in the source; the driver model receives them separately,
    so the rule value itself carries only the grammar data. -/
structure Rule where
  left : Sym
  right : List Sym
  deriving DecidableEq, Repr

/-- A grammar is the ordered list of its rules (grammar.py, class Grammar). -/
structure Grammar where
  rules : List Rule
  deriving DecidableEq, Repr

/-- grammar.py: a symbol is non-terminal iff it is the left side of some rule;
    `is_terminal` returns True for all other symbols. -/
def Grammar.is_terminal (g : Grammar) (s : Sym) : Bool :=
  !(g.rules.any (fun r => r.left == s))

/-- grammar.py `rules(left)`: the rules with the given symbol on the left,
    in their order of occurrence. -/
def Grammar.rulesFor (g : Grammar) (s : Sym) : List Rule :=
  g.rules.filter (fun r => r.left == s)

/-- grammar.py: the set of all referenced symbols, collected as
    left then right of each rule in order (deduplicated). -/
def Grammar.symbolList (g : Grammar) : List Sym :=
  (g.rules.foldl (fun acc r => acc ++ [r.left] ++ r.right) []).dedup

/-- Modelled from the spec: the `root()` accessor of the grammar module used by
    lrparser.py is not under src/.  Per the spec, the designated root is the
    left of the first user rule, and there is no root when the grammar has no
    rules (which is exactly the case the parser constructor rejects). -/
def Grammar.root (g : Grammar) : Option Sym :=
  g.rules.head?.map Rule.left

/-- lrparser.py class _Item: a dotted rule with a lookahead string.
    Items are value-compared on (rule, index, lookahead). -/
structure Item where
  rule : Rule
  index : Nat
  lookahead : List Sym
  deriving DecidableEq, Repr

/-- _Item.final: the dot is at (or past) the end of the right-hand side. -/
def Item.final (it : Item) : Bool :=
  it.rule.right.length ≤ it.index

/-- _Item.next_token: the symbol after the dot, or none for a final item. -/
def Item.next_token (it : Item) : Option Sym :=
  if it.final then none else it.rule.right[it.index]?

/-- _Item.next_lookaheads: FIRST_k of (rule suffix after the next symbol
    concatenated with the lookahead).  `first` is the FIRST_k oracle. -/
def Item.next_lookaheads (it : Item) (first : List Sym → List (List Sym)) :
    List (List Sym) :=
  first (it.rule.right.drop (it.index + 1) ++ it.lookahead)

/-- _Item.lookaheads: FIRST_k of (rule suffix from the dot concatenated with
    the lookahead). -/
def Item.lookaheads (it : Item) (first : List Sym → List (List Sym)) :
    List (List Sym) :=
  first (it.rule.right.drop it.index ++ it.lookahead)

/-- The closure expansion step of _close_itemset (lrparser.py lines 100-104):
    for each lookahead in next_lookaheads, for each rule of the non-terminal
    after the dot, the fresh initial item. -/
def itemExpand (aug : Grammar) (first : List Sym → List (List Sym))
    (it : Item) : List Item :=
  (it.next_lookaheads first).flatMap (fun la =>
    match it.next_token with
    | none => []
    | some nt => (aug.rulesFor nt).map (fun r => Item.mk r 0 la))

/-- The worklist loop of _close_itemset: visit the item at index i, append the
    expansions that are not yet present, advance i; stop when i reaches the
    end.  Fuel bounds the number of loop iterations; `none` means the fuel ran
    out (the Python loop always terminates because the item universe is
    finite). -/
def closeAux (expand : Item → List Item) : Nat → List Item → Nat → Option (List Item)
  | 0, l, i => if i < l.length then none else some l
  | fuel+1, l, i =>
    if h : i < l.length then
      closeAux expand fuel
        ((expand l[i]).foldl (fun acc x => if x ∈ acc then acc else acc ++ [x]) l)
        (i+1)
    else some l

/-- _close_itemset on an item list (the wrapping into a _State is modelled
    separately by the state structure below). -/
def closeItemset (expand : Item → List Item) (fuel : Nat) (l : List Item) :
    Option (List Item) :=
  closeAux expand fuel l 0

/-- Association-list lookup, modelling a Python dict access `d[key]`
    (`none` when the key is absent). -/
def lookupA {α β : Type} [DecidableEq α] : List (α × β) → α → Option β
  | [], _ => none
  | e :: t, a => if e.1 = a then some e.2 else lookupA t a

/-- Association-list update, modelling a Python dict assignment `d[key] = v`
    (an existing binding keeps its position, a new one is appended). -/
def updateA {α β : Type} [DecidableEq α] : List (α × β) → α → β → List (α × β)
  | [], a, b => [(a, b)]
  | e :: t, a, b => if e.1 = a then (a, b) :: t else e :: updateA t a b

/-- lrparser.py class _State before matcher binding: the closed item set, the
    goto table (symbol to state index) and the action table (lookahead string
    to either the shift marker `none` or a reduce rule). -/
structure StateT where
  itemset : List Item
  goto : List (Sym × Nat)
  action : List (List Sym × Option Rule)
  deriving DecidableEq, Repr

/-- Python set equality of two item lists (`newstate.itemset == oldstate.itemset`). -/
def sameItemset (l1 l2 : List Item) : Bool :=
  (l1.all fun x => decide (x ∈ l2)) && (l2.all fun x => decide (x ∈ l1))

/-- The dot-advancing comprehension in _goto (lrparser.py line 111). -/
def advanceItems (l : List Item) (s : Sym) : List Item :=
  (l.filter (fun it => it.next_token == some s)).map
    (fun it => Item.mk it.rule (it.index + 1) it.lookahead)

/-- _goto composed with _close_itemset. -/
def gotoClose (expand : Item → List Item) (fuel : Nat) (l : List Item) (s : Sym) :
    Option (List Item) :=
  closeItemset expand fuel (advanceItems l s)

/-- The inner loop of the state construction (lrparser.py lines 121-132): for
    each grammar symbol, compute the goto successor of state i; skip it when
    empty, otherwise record the index of an existing state with the same item
    set or append the new state.  `none` propagates closure fuel exhaustion. -/
def processSyms (expand : Item → List Item) (fuel : Nat) :
    List Sym → List StateT → Nat → Option (List StateT)
  | [], sts, _ => some sts
  | X :: rest, sts, i =>
    match sts[i]? with
    | none => none
    | some st =>
      match gotoClose expand fuel st.itemset X with
      | none => none
      | some newIS =>
        if newIS.isEmpty then processSyms expand fuel rest sts i
        else
          match sts.findIdx? (fun old => sameItemset newIS old.itemset) with
          | some j =>
            processSyms expand fuel rest
              (sts.set i { st with goto := updateA st.goto X j }) i
          | none =>
            processSyms expand fuel rest
              ((sts.set i { st with goto := updateA st.goto X sts.length })
                ++ [StateT.mk newIS [] []]) i

/-- The worklist loop over state indices (lrparser.py lines 117-134).  The
    first fuel argument is the closure fuel, the second bounds the number of
    worklist iterations. -/
def buildStates (expand : Item → List Item) (fuel0 : Nat) (syms : List Sym) :
    Nat → List StateT → Nat → Option (List StateT)
  | 0, sts, i => if i < sts.length then none else some sts
  | fuel+1, sts, i =>
    if i < sts.length then
      match processSyms expand fuel0 syms sts i with
      | none => none
      | some sts2 => buildStates expand fuel0 syms fuel sts2 (i+1)
    else some sts

/-- The single quote character, used by the Python repr of strings. -/
def qc : String := String.singleton (Char.ofNat 39)

/-- Python repr of a string (the symbols never contain quotes here). -/
def pyStrRepr (s : String) : String := qc ++ s ++ qc

/-- Python str of a tuple of strings, as interpolated into error messages. -/
def pyTupleStr (l : List Sym) : String :=
  match l with
  | [] => "()"
  | [x] => "(" ++ pyStrRepr x ++ ",)"
  | _ => "(" ++ String.intercalate ", " (l.map pyStrRepr) ++ ")"

/-- Modelled from the spec and the doctest in lrparser.py (`print p.grammar`
    shows `list ::= <empty>`): the str() rendering of a Rule object from the
    rule module, which is not under src/. -/
def ruleStr (r : Rule) : String :=
  r.left ++ " ::= " ++ (if r.right.isEmpty then "<empty>" else String.intercalate " " r.right)

/-- Python list.insert: insert at the given position, appending when the
    position is past the end. -/
def insertAt {α : Type} : Nat → α → List α → List α
  | 0, x, l => x :: l
  | _+1, x, [] => [x]
  | n+1, x, y :: t => y :: insertAt n x t

/-- _Item.__str__ (lrparser.py lines 260-264): the dotted rule followed by the
    lookahead tuple. -/
def itemStr (it : Item) : String :=
  String.intercalate " " (insertAt (it.index + 2) "." ([it.rule.left, "::="] ++ it.rule.right))
    ++ " " ++ pyTupleStr it.lookahead

/-- The str() of an action: the shift marker None or a reduce rule. -/
def actStr : Option Rule → String
  | none => "None"
  | some r => ruleStr r

/-- The message interpolated at lrparser.py lines 140-141. -/
def conflictMessage (k : Nat) (old new : Option Rule) (item : Item) : String :=
  "LR(" ++ toString k ++ ") table conflict: actions " ++ actStr old ++ ", "
    ++ actStr new ++ " trying to add " ++ itemStr item

/-- A construction failure: an InvalidGrammarError with its message, or a
    failed Python assert (a distinct exception type in the source). -/
inductive BuildErr where
  | invalidGrammar (msg : String)
  | assertionFailed
  deriving DecidableEq, Repr

/-- The message of the empty-grammar rejection (lrparser.py line 83). -/
def emptyGrammarMsg : String := "There must be at least one rule in the grammar."

/-- Recognizer for conflict messages (they all start with "LR("). -/
def isConflictMsg (m : String) : Bool := "LR(".isPrefixOf m

/-- lrparser.py add_action (lines 138-142) acting on the action table of a
    state: a differing second assignment to the same lookahead aborts with the
    conflict message; otherwise the entry is (re)assigned. -/
def add_action (k : Nat) (amap : List (List Sym × Option Rule))
    (lookahead : List Sym) (act : Option Rule) (item : Item) :
    Except BuildErr (List (List Sym × Option Rule)) :=
  match lookupA amap lookahead with
  | some old =>
    if old ≠ act then .error (.invalidGrammar (conflictMessage k old act item))
    else .ok (updateA amap lookahead act)
  | none => .ok (updateA amap lookahead act)

/-- The shift entries of one item (lrparser.py lines 154-155): one add_action
    per admissible lookahead. -/
def addShifts (k : Nat) (item : Item) :
    List (List Sym) → List (List Sym × Option Rule) →
    Except BuildErr (List (List Sym × Option Rule))
  | [], amap => .ok amap
  | la :: rest, amap =>
    match add_action k amap la none item with
    | .error e => .error e
    | .ok m => addShifts k item rest m

/-- The action-filling loop over the items of one state (lrparser.py lines
    145-155), also tracking the accepting-state assignment. -/
def fillItems (aug : Grammar) (first : List Sym → List (List Sym)) (k : Nat)
    (sid : Nat) :
    List Item → List (List Sym × Option Rule) → Option Nat →
    Except BuildErr (List (List Sym × Option Rule) × Option Nat)
  | [], amap, acc => .ok (amap, acc)
  | item :: rest, amap, acc =>
    match item.next_token with
    | none =>
      if item.rule.left = "" then
        match add_action k amap item.lookahead none item with
        | .error e => .error e
        | .ok m => fillItems aug first k sid rest m (some sid)
      else
        match add_action k amap item.lookahead (some item.rule) item with
        | .error e => .error e
        | .ok m => fillItems aug first k sid rest m acc
    | some nt =>
      if aug.is_terminal nt then
        match addShifts k item (item.lookaheads first) amap with
        | .error e => .error e
        | .ok m => fillItems aug first k sid rest m acc
      else fillItems aug first k sid rest amap acc

/-- The action-filling loop over all states (lrparser.py lines 144-155). -/
def fillStates (aug : Grammar) (first : List Sym → List (List Sym)) (k : Nat) :
    List StateT → Nat → Option Nat →
    Except BuildErr (List StateT × Option Nat)
  | [], _, acc => .ok ([], acc)
  | st :: rest, sid, acc =>
    match fillItems aug first k sid st.itemset st.action acc with
    | .error e => .error e
    | .ok (amap, acc2) =>
      match fillStates aug first k rest (sid+1) acc2 with
      | .error e => .error e
      | .ok (sts, acc3) => .ok ({ st with action := amap } :: sts, acc3)

/-- The start rule of the augmented grammar (lrparser.py line 90): the left
    side is the empty string and the right side is the root of the user
    grammar. -/
def augRule (root : Sym) : Rule := Rule.mk "" [root]

/-- Parser.__init__ up to (and excluding) matcher binding: the empty-grammar
    check, grammar augmentation, state construction, action filling and the
    accepting-state assert.  The `firstOf` argument stands for the First class
    of the external first module; it receives the augmented grammar and k.
    The overall result is `none` when the fuel runs out, otherwise the raised
    error or the state list with the accepting state index. -/
def mkTables (fuel : Nat) (g : Grammar) (k : Nat)
    (firstOf : Grammar → Nat → List Sym → List (List Sym)) :
    Option (Except BuildErr (List StateT × Nat)) :=
  match g.root with
  | none => some (.error (.invalidGrammar emptyGrammarMsg))
  | some r =>
    let aug : Grammar := Grammar.mk (augRule r :: g.rules)
    let first := firstOf aug k
    let expand := itemExpand aug first
    match closeItemset expand fuel [Item.mk (augRule r) 0 []] with
    | none => none
    | some s0 =>
      match buildStates expand fuel aug.symbolList fuel [StateT.mk s0 [] []] 0 with
      | none => none
      | some sts =>
        match fillStates aug first k sts 0 none with
        | .error e => some (.error e)
        | .ok (sts2, some accState) => some (.ok (sts2, accState))
        | .ok (_, none) => some (.error .assertionFailed)

/-- Modelled from the spec: FIRST_k of a symbol string under a table M from
    non-terminals to terminal-string sets (first.py is not under src/).
    FIRST_k of the empty word is the empty string; a terminal contributes
    itself, a non-terminal contributes its table entry; results of the
    concatenation are truncated to length k. -/
def firstWord (k : Nat) (g : Grammar) (M : List (Sym × List (List Sym))) :
    List Sym → List (List Sym)
  | [] => [[]]
  | s :: w =>
    let FS := if g.is_terminal s then [[s]] else (lookupA M s).getD []
    (FS.flatMap (fun x => (firstWord k g M w).map (fun y => (x ++ y).take k))).dedup

/-- Modelled from the spec: one round of the FIRST_k fixed point, folding
    every rule into the table. -/
def firstStep (k : Nat) (g : Grammar) (M : List (Sym × List (List Sym))) :
    List (Sym × List (List Sym)) :=
  g.rules.foldl (fun M r =>
    updateA M r.left (((lookupA M r.left).getD []) ++
      (firstWord k g M r.right).filter (fun w => w ∉ ((lookupA M r.left).getD []))).dedup) M

/-- Modelled from the spec: the FIRST_k fixed point, iterated `fuel` times
    starting from the empty table. -/
def mkFirstTable (fuel : Nat) (g : Grammar) (k : Nat) :
    List (Sym × List (List Sym)) :=
  Nat.rec ([] : List (Sym × List (List Sym))) (fun _ M => firstStep k g M) fuel

/-- Modelled from the spec: the public FIRST_k operation on symbol strings. -/
def mkFirst (fuel : Nat) (g : Grammar) (k : Nat) : List Sym → List (List Sym) :=
  firstWord k g (mkFirstTable fuel g k)

/-- An atomic Python object: None, a string, or an integer. -/
inductive Atom where
  | none
  | str (s : String)
  | num (n : Int)
  deriving DecidableEq, Repr

/-- A token / semantic value: an opaque Python object.  The model universe has
    atoms and tuples of atoms, which covers everything the source inspects
    (tuples in extract_first, the None comparison in the driver). -/
inductive Val where
  | atom (a : Atom)
  | tup (elems : List Atom)
  deriving DecidableEq, Repr

/-- The Python None object in the value universe. -/
def Val.noneV : Val := .atom .none

/-- lrparser.py extract_first: the argument or, if it is a tuple, its first
    member.  Indexing an empty tuple raises IndexError, modelled as `none`. -/
def extract_first (v : Val) : Option Val :=
  match v with
  | .tup elems => elems.head?.map Val.atom
  | w => some w

/-- A state after matcher binding (lrparser.py lines 159-172): the ordered
    action-match list of (predicate vector, action), the exact-symbol goto
    entries keyed by the symbol as a value, and the ordered goto-match list
    for symbols with user matchers. -/
structure BoundState where
  action_match : List (List (Val → Bool) × Option Rule)
  goto : List (Val × Nat)
  goto_match : List ((Val → Bool) × Nat)

/-- The predicate chosen for one lookahead symbol (lrparser.py line 162):
    the user matcher when the symbol is a key of the matcher map, otherwise a
    _SymbolMatcher, i.e. equality to the symbol. -/
def boundMatcher (ms : List (Sym × (Val → Bool))) (s : Sym) : Val → Bool :=
  match lookupA ms s with
  | some m => m
  | none => fun v => v == Val.atom (Atom.str s)

/-- The goto split loop (lrparser.py lines 166-172): entries whose symbol has
    a user matcher go to goto_match in order, the rest stay in goto. -/
def fixupGoto (ms : List (Sym × (Val → Bool))) (goto : List (Sym × Nat)) :
    List (Val × Nat) × List ((Val → Bool) × Nat) :=
  goto.foldl (fun acc e =>
    match lookupA ms e.1 with
    | some m => (acc.1, acc.2 ++ [(m, e.2)])
    | none => (acc.1 ++ [(Val.atom (Atom.str e.1), e.2)], acc.2)) ([], [])

/-- Matcher binding for one state (lrparser.py lines 160-172). -/
def fixupState (ms : List (Sym × (Val → Bool))) (st : StateT) : BoundState :=
  { action_match := st.action.map (fun e => (e.1.map (boundMatcher ms), e.2)),
    goto := (fixupGoto ms st.goto).1,
    goto_match := (fixupGoto ms st.goto).2 }

/-- A parse failure: a ParsingError (carrying the offending key or symbol, or
    the premature-end case), a failed Python assert, or an index error of the
    underlying lists. -/
inductive DriveErr where
  | unexpectedKey (key : List Val)
  | unexpectedSymbol (v : Val)
  | prematureEnd
  | assertionFailed
  | indexError
  deriving DecidableEq, Repr

/-- _State.get_action (lrparser.py lines 311-319): scan action_match in order
    for the first entry whose predicate vector has the length of the key and
    whose predicates all accept the corresponding key values; raise a
    ParsingError naming the key when no entry matches. -/
def get_action (am : List (List (Val → Bool) × Option Rule)) (key : List Val) :
    Except DriveErr (Option Rule) :=
  match am with
  | [] => .error (.unexpectedKey key)
  | (ml, act) :: rest =>
    if ml.length ≠ key.length then get_action rest key
    else if (ml.zip key).all (fun p => p.1 p.2) then .ok act
    else get_action rest key

/-- _State.get_next_state (lrparser.py lines 321-329): exact goto hit first,
    then the goto_match list in order, else a ParsingError naming the symbol. -/
def get_next_state (st : BoundState) (v : Val) : Except DriveErr Nat :=
  match lookupA st.goto v with
  | some n => .ok n
  | none =>
    match st.goto_match.find? (fun e => e.1 v) with
    | some e => .ok e.2
    | none => .error (.unexpectedSymbol v)

/-- A parser after matcher binding: the bound states and the accepting state
    index. -/
structure BoundParser where
  states : List BoundState
  accepting : Nat

/-- The mutable state of Parser.parse: the state stack, the semantic-value
    stack, the k-deep lookahead buffer and the remaining input (the token
    iterator is modelled as a list). -/
structure Config where
  stack : List Nat
  asts : List Val
  buf : List Val
  input : List Val
  deriving DecidableEq, Repr

/-- The initial configuration (lrparser.py lines 183-189 and 205-206): the
    buffer is primed with up to k tokens. -/
def initConfig (k : Nat) (input : List Val) : Config :=
  Config.mk [0] [] (input.take k) (input.drop k)

/-- get_shift_token (lrparser.py lines 191-203): with an empty buffer, pull
    from the iterator (None at its end); otherwise pop the buffer head and
    refill one token from the iterator.  Note that a None token stored in the
    buffer is returned as the same value the end of input produces. -/
def getShiftToken (c : Config) : Val × Config :=
  match c.buf with
  | [] =>
    match c.input with
    | [] => (Val.noneV, c)
    | t :: rest => (t, { c with input := rest })
  | b :: bs =>
    match c.input with
    | [] => (b, { c with buf := bs })
    | t :: rest => (b, { c with buf := bs ++ [t], input := rest })

deriving instance DecidableEq for Except

/-- The outcome of one iteration of the parse loop: either the loop finishes
    (returning a value or raising), or it continues with a new configuration. -/
inductive StepRes where
  | done (r : Except DriveErr Val)
  | next (c : Config)
  deriving DecidableEq, Repr

/-- One iteration of the while loop of Parser.parse (lrparser.py lines
    207-242).  `sem` runs the semantic action of a rule on the context and the
    popped values; `ext` is the extract function; visitors are left at their
    None defaults. -/
def step (P : BoundParser) (sem : Rule → Val → List Val → Val)
    (ext : Val → Val) (ctx : Val) (c : Config) : StepRes :=
  match c.stack.getLast? with
  | none => .done (.error .indexError)
  | some sid =>
    match P.states[sid]? with
    | none => .done (.error .indexError)
    | some st =>
      let key := c.buf.map ext
      match get_action st.action_match key with
      | .error e => .done (.error e)
      | .ok (some rule) =>
        let n := rule.right.length
        let popped := if n > 0 then c.asts.drop (c.asts.length - n) else []
        let newAst := sem rule ctx popped
        let stack1 := if n > 0 then c.stack.take (c.stack.length - n) else c.stack
        let asts1 := if n > 0 then c.asts.take (c.asts.length - n) else c.asts
        match stack1.getLast? with
        | none => .done (.error .indexError)
        | some top =>
          match P.states[top]? with
          | none => .done (.error .indexError)
          | some st2 =>
            match get_next_state st2 (Val.atom (Atom.str rule.left)) with
            | .error e => .done (.error e)
            | .ok ns => .next (Config.mk (stack1 ++ [ns]) (asts1 ++ [newAst]) c.buf c.input)
      | .ok none =>
        let tc := getShiftToken c
        if tc.1 = Val.noneV then
          if sid = P.accepting then
            match c.asts with
            | [v] => .done (.ok v)
            | _ => .done (.error .assertionFailed)
          else .done (.error .prematureEnd)
        else
          match get_next_state st (ext tc.1) with
          | .error e => .done (.error e)
          | .ok ns =>
            .next (Config.mk (c.stack ++ [ns]) (c.asts ++ [tc.1]) tc.2.buf tc.2.input)

/-- Parser.parse as iteration of `step`, with fuel; `none` means the fuel ran
    out before the loop finished. -/
def run (P : BoundParser) (sem : Rule → Val → List Val → Val)
    (ext : Val → Val) (ctx : Val) : Nat → Config → Option (Except DriveErr Val)
  | 0, _ => none
  | fuel+1, c =>
    match step P sem ext ctx c with
    | .done r => some r
    | .next c2 => run P sem ext ctx fuel c2

/-- The configuration after n non-final iterations of the parse loop, `none`
    when the loop finishes earlier. -/
def iterateSteps (P : BoundParser) (sem : Rule → Val → List Val → Val)
    (ext : Val → Val) (ctx : Val) : Nat → Config → Option Config
  | 0, c => some c
  | n+1, c =>
    match step P sem ext ctx c with
    | .done _ => none
    | .next c2 => iterateSteps P sem ext ctx n c2

/-- Matcher binding over all states (lrparser.py lines 159-175): the bound
    parser built from constructed tables. -/
def bindTables (ms : List (Sym × (Val → Bool))) (t : List StateT × Nat) :
    BoundParser :=
  BoundParser.mk (t.1.map (fixupState ms)) t.2

/-! Concrete instances used by witnesses and counterexamples: the LR(0) list
    grammar of the lrparser.py doctests. -/

/-- The doctest grammar: list ::= empty, list ::= list item. -/
def listGrammar : Grammar :=
  Grammar.mk [Rule.mk "list" [], Rule.mk "list" ["list", "item"]]

/-- Its constructed tables (the fallback branch is never reached, as the
    witness theorems prove). -/
def listTables : List StateT × Nat :=
  match mkTables 40 listGrammar 0 (mkFirst 40) with
  | some (.ok t) => t
  | _ => ([], 0)

/-- The doctest parser, bound with an empty matcher map. -/
def listParser : BoundParser := bindTables [] listTables

/-- Semantic actions counting list items (the doctest actions build lists;
    the count plays the same role in the value universe of the model). -/
def listSem : Rule → Val → List Val → Val := fun r _ vs =>
  if r.right.isEmpty then Val.atom (.num 0)
  else match vs with
       | [Val.atom (.num l), _] => Val.atom (.num (l + 1))
       | _ => Val.noneV

/-- A total extract function behaving as extract_first on the tokens used in
    the demos (no empty tuples occur in them). -/
def extOne : Val → Val := fun v => match v with | .tup (x :: _) => .atom x | w => w

/-- The input ("item", "bogus"): one valid token, then an unexpected one. -/
def demoIn : List Val := [Val.atom (.str "item"), Val.atom (.str "bogus")]

/-- The augmented doctest grammar. -/
def listAug : Grammar := Grammar.mk (augRule "list" :: listGrammar.rules)

/-- The closure expansion of the augmented doctest grammar at k = 0. -/
def listExpand : Item → List Item := itemExpand listAug (mkFirst 40 listAug 0)

/-- The start item of the augmented doctest grammar. -/
def listStartItem : Item := Item.mk (augRule "list") 0 []

/-- A reduce action and an item of the kind that meet in a shift/reduce
    conflict, used by the conflict-message counterexample. -/
def demoRedRule : Rule := Rule.mk "list" []

/-- The shift item whose second assignment triggers the conflict. -/
def demoShiftItem : Item := Item.mk (Rule.mk "list" ["item", "list"]) 0 []

end Limecc

namespace Limecc

/-! ### Claim C9: the default extract function -/

/-- C9, counterexample.  The claim says every pair-like token maps to its
    first component and every other token to itself, which entails a defined
    result on every token.  On the empty tuple the source evaluates
    `token[0]`, which raises IndexError: the result is neither the (missing)
    first component nor the token itself. -/
theorem extract_first_empty_tuple :
    extract_first (Val.tup []) = none ∧ ∀ w : Val, extract_first (Val.tup []) ≠ some w := by
  exact ⟨rfl, fun w h => by cases h⟩

/-- C9, amended: the default extract function maps every nonempty tuple to
    its first component and every non-tuple token to the token itself; on the
    empty tuple it raises an IndexError instead of producing a value. -/
theorem extract_first_spec :
    (∀ a : Atom, extract_first (Val.atom a) = some (Val.atom a)) ∧
    (∀ (x : Atom) (xs : List Atom), extract_first (Val.tup (x :: xs)) = some (Val.atom x)) ∧
    extract_first (Val.tup []) = none := by
  exact ⟨fun a => rfl, fun x xs => rfl, rfl⟩

/-! ### Claim C3: action lookup during parsing -/

/-- C3: get_action returns the action of the first action_match entry whose
    predicate vector has exactly the length of the key and whose predicates
    all accept the corresponding extracted values; when no entry matches it
    raises a parse error naming the offending key. -/
theorem get_action_first_match (am : List (List (Val → Bool) × Option Rule))
    (key : List Val) :
    get_action am key =
      match am.find? (fun e => e.1.length == key.length
          && (e.1.zip key).all (fun p => p.1 p.2)) with
      | some e => .ok e.2
      | none => .error (.unexpectedKey key) := by
  induction am with
  | nil => rfl
  | cons e rest ih =>
    obtain ⟨ml, act⟩ := e
    simp only [List.find?]
    by_cases hlen : ml.length = key.length
    · cases hall : ((ml.zip key).all (fun p => p.1 p.2)) with
      | true =>
        simp only [get_action]
        rw [if_neg (by simp [hlen]), if_pos hall]
        simp [hlen]
      | false =>
        simp only [get_action]
        rw [if_neg (by simp [hlen]), if_neg (by simp [hall]), ih]
        simp
    · simp only [get_action]
      rw [if_pos hlen, ih]
      have hp : (ml.length == key.length) = false := by simp [hlen]
      simp [hp]

/-! ### Claim C4: matcher binding -/

theorem fixupGoto_foldl (ms : List (Sym × (Val → Bool))) (l : List (Sym × Nat))
    (acc : List (Val × Nat) × List ((Val → Bool) × Nat)) :
    l.foldl (fun acc e =>
      match lookupA ms e.1 with
      | some m => (acc.1, acc.2 ++ [(m, e.2)])
      | none => (acc.1 ++ [(Val.atom (Atom.str e.1), e.2)], acc.2)) acc
    = (acc.1 ++ (l.filter (fun e => (lookupA ms e.1).isNone)).map
          (fun e => (Val.atom (Atom.str e.1), e.2)),
       acc.2 ++ l.filterMap (fun e => (lookupA ms e.1).map (fun m => (m, e.2)))) := by
  induction l generalizing acc with
  | nil => simp
  | cons e t ih =>
    simp only [List.foldl_cons]
    cases h : lookupA ms e.1 with
    | some m =>
      rw [ih]
      simp [List.filter_cons, List.filterMap_cons, h]
    | none =>
      rw [ih]
      simp [List.filter_cons, List.filterMap_cons, h]

/-- C4: binding rewrites each terminal in a lookahead position to the
    caller-supplied matcher when the symbol is a key of the matcher map and
    to equality-to-symbol otherwise; goto entries with a user matcher move to
    goto_match (in order) while the remaining entries stay in goto for
    exact-symbol lookup. -/
theorem matcher_binding_spec (ms : List (Sym × (Val → Bool))) (st : StateT) :
    (∀ s v, boundMatcher ms s v =
      (match lookupA ms s with
       | some m => m v
       | none => decide (v = Val.atom (Atom.str s)))) ∧
    (fixupState ms st).action_match
      = st.action.map (fun e => (e.1.map (boundMatcher ms), e.2)) ∧
    (fixupState ms st).goto
      = (st.goto.filter (fun e => (lookupA ms e.1).isNone)).map
          (fun e => (Val.atom (Atom.str e.1), e.2)) ∧
    (fixupState ms st).goto_match
      = st.goto.filterMap (fun e => (lookupA ms e.1).map (fun m => (m, e.2))) := by
  refine ⟨?_, rfl, ?_, ?_⟩
  · intro s v
    unfold boundMatcher
    cases h : lookupA ms s with
    | some m => rfl
    | none => rfl
  · show (fixupGoto ms st.goto).1 = _
    unfold fixupGoto
    rw [fixupGoto_foldl]
    simp
  · show (fixupGoto ms st.goto).2 = _
    unfold fixupGoto
    rw [fixupGoto_foldl]
    simp

/-! ### Claim C1: conflict detection in add_action -/

/-- C1, counterexample.  The claim says the error message names the offending
    state and the lookahead.  The message interpolates only k, the two
    actions and the triggering item (lrparser.py lines 140-141): two
    conflicting second assignments at different lookaheads (and the model of
    add_action does not even receive the state index) produce the identical
    error, so the message cannot name either. -/
theorem add_action_message_ignores_lookahead :
    ∃ m : BuildErr,
      add_action 1 [(["a"], some demoRedRule)] ["a"] none demoShiftItem = .error m ∧
      add_action 1 [(["b"], some demoRedRule)] ["b"] none demoShiftItem = .error m ∧
      (["a"] : List Sym) ≠ ["b"] :=
  ⟨_, rfl, rfl, by decide⟩

/-- C1, amended: a second assignment differing from the existing entry aborts
    with an InvalidGrammar error whose message names k, the two conflicting
    actions, and the item that triggered the second assignment (but neither
    the offending state nor the lookahead); an assignment equal to the
    existing entry, or a first assignment, succeeds and stores the action. -/
theorem add_action_conflict_spec (k : Nat) (amap : List (List Sym × Option Rule))
    (la : List Sym) (act : Option Rule) (item : Item) :
    (∀ old, lookupA amap la = some old → old ≠ act →
      add_action k amap la act item
        = .error (.invalidGrammar (conflictMessage k old act item))) ∧
    (lookupA amap la = some act →
      add_action k amap la act item = .ok (updateA amap la act)) ∧
    (lookupA amap la = none →
      add_action k amap la act item = .ok (updateA amap la act)) := by
  refine ⟨?_, ?_, ?_⟩
  · intro old hl hne
    unfold add_action
    rw [hl]
    simp [hne]
  · intro hl
    unfold add_action
    rw [hl]
    simp
  · intro hl
    unfold add_action
    rw [hl]

/-- C1, witness for the amended claim: a concrete conflicting assignment, a
    concrete equal re-assignment, and a concrete first assignment. -/
theorem add_action_conflict_spec_witness :
    (add_action 0 [([], some demoRedRule)] [] none demoShiftItem
      = .error (.invalidGrammar (conflictMessage 0 (some demoRedRule) none demoShiftItem))) ∧
    (add_action 0 [([], none)] [] none demoShiftItem = .ok (updateA [([], none)] [] none)) ∧
    (add_action 0 [] [] none demoShiftItem = .ok (updateA [] [] none)) :=
  ⟨(add_action_conflict_spec 0 [([], some demoRedRule)] [] none demoShiftItem).1
      (some demoRedRule) rfl (by decide),
   (add_action_conflict_spec 0 [([], none)] [] none demoShiftItem).2.1 rfl,
   (add_action_conflict_spec 0 [] [] none demoShiftItem).2.2 rfl⟩

/-! ### Claim C5: the augmentation symbol -/

/-- C5, counterexample.  The augmentation symbol is the literal empty string
    (lrparser.py line 90).  A user grammar that references the empty string
    as a symbol makes the claimed freshness false. -/
theorem augmentation_symbol_not_fresh :
    (Grammar.mk [Rule.mk "x" [""]]).root = some "x" ∧
    (augRule "x").left ∈ (Grammar.mk [Rule.mk "x" [""]]).symbolList := by
  refine ⟨rfl, ?_⟩
  decide

/-- C5, amended: the augmentation symbol is the fixed sentinel "" (the empty
    string); the synthetic rule is rule 0 of the augmented grammar, and its
    left side is a non-terminal of the augmented grammar.  The sentinel is
    distinct from all user symbols provided the user grammar does not itself
    reference the empty string. -/
theorem augmentation_fresh_and_rule_zero (g : Grammar) (r : Sym)
    (_hroot : g.root = some r) (hfresh : ("" : Sym) ∉ g.symbolList) :
    (Grammar.mk (augRule r :: g.rules)).rules.head? = some (augRule r) ∧
    (augRule r).left = "" ∧
    (augRule r).left ∉ g.symbolList ∧
    (Grammar.mk (augRule r :: g.rules)).is_terminal (augRule r).left = false := by
  refine ⟨rfl, rfl, hfresh, ?_⟩
  simp [Grammar.is_terminal, augRule]

theorem getLast?_some_ne_nil {α : Type} {l : List α} {a : α}
    (h : l.getLast? = some a) : l ≠ [] := by
  intro he
  rw [he] at h
  cases h

/-! ### Claim C7: the stack/value-stack length invariant -/

/-- C7: the semantic-value stack is exactly one shorter than the state stack:
    this holds in the initial configuration (state stack [0], no values) and
    is preserved by every iteration of the parse loop, shift and reduce
    alike. -/
theorem parse_stack_value_invariant (P : BoundParser)
    (sem : Rule → Val → List Val → Val) (ext : Val → Val) (ctx : Val) :
    (∀ (k : Nat) (input : List Val),
        (initConfig k input).asts.length + 1 = (initConfig k input).stack.length) ∧
    (∀ c c2, step P sem ext ctx c = .next c2 →
        c.asts.length + 1 = c.stack.length →
        c2.asts.length + 1 = c2.stack.length) := by
  constructor
  · intro k input
    rfl
  · intro c c2 hstep hinv
    simp only [step] at hstep
    repeat' split at hstep
    all_goals cases hstep
    · -- reduce step with a nonempty right side
      rename_i o2 top hlast o1 st2 hst2 o0 ns hns hn
      rw [if_pos hn] at hlast
      have hne := getLast?_some_ne_nil hlast
      have hlen := List.length_pos.mpr hne
      simp only [List.length_take] at hlen
      simp [List.length_take]
      omega
    · -- reduce step with an empty right side
      simp
      omega
    · -- shift step
      simp
      omega

/-- C7, witness: the invariant holds for the initial configuration of the
    doctest parser on empty input, and is preserved by its first (reduce)
    step. -/
theorem parse_stack_value_invariant_witness :
    ((initConfig 0 []).asts.length + 1 = (initConfig 0 []).stack.length) ∧
    (∃ c2, step listParser listSem extOne Val.noneV (initConfig 0 []) = .next c2 ∧
      c2.asts.length + 1 = c2.stack.length) :=
  ⟨(parse_stack_value_invariant listParser listSem extOne Val.noneV).1 0 [],
   ⟨_, rfl, (parse_stack_value_invariant listParser listSem extOne Val.noneV).2
      (initConfig 0 []) _ rfl rfl⟩⟩

/-! ### Claim C10: a None token acts as end of input -/

/-- C10: when the driver is about to shift (the looked-up action is the shift
    marker) and the fetched token is None - because the input is exhausted or
    because a None token sits at the front of the lookahead stream - the
    driver treats it as end of input: it accepts when the current state is
    the accepting state (returning the sole semantic value) and raises the
    premature-end ParsingError otherwise.  A successfully shifted token is
    pushed as a semantic value and is never None. -/
theorem none_token_treated_as_eof (P : BoundParser)
    (sem : Rule → Val → List Val → Val) (ext : Val → Val) (ctx : Val)
    (c : Config) (sid : Nat) (st : BoundState)
    (htop : c.stack.getLast? = some sid) (hst : P.states[sid]? = some st)
    (hact : get_action st.action_match (c.buf.map ext) = .ok none) :
    ((getShiftToken c).1 = Val.noneV → sid = P.accepting → ∀ v, c.asts = [v] →
      step P sem ext ctx c = .done (.ok v)) ∧
    ((getShiftToken c).1 = Val.noneV → sid ≠ P.accepting →
      step P sem ext ctx c = .done (.error .prematureEnd)) ∧
    (∀ c2, step P sem ext ctx c = .next c2 →
      c2.asts = c.asts ++ [(getShiftToken c).1] ∧ (getShiftToken c).1 ≠ Val.noneV) := by
  refine ⟨?_, ?_, ?_⟩
  · intro hnone hacc v hasts
    simp only [step, htop, hst, hact]
    rw [if_pos hnone, if_pos hacc, hasts]
  · intro hnone hacc
    simp only [step, htop, hst, hact]
    rw [if_pos hnone, if_neg hacc]
  · intro c2 hstep
    simp only [step, htop, hst, hact] at hstep
    split at hstep
    · split at hstep <;> (try split at hstep) <;> cases hstep
    · rename_i hne
      split at hstep
      · cases hstep
      · cases hstep
        exact ⟨rfl, hne⟩

/-- C10, witness: at the accepting state of the doctest parser with a None
    token at the head of the remaining input, the parse accepts with the sole
    semantic value. -/
theorem none_token_treated_as_eof_witness :
    step listParser listSem extOne Val.noneV
      (Config.mk [0, 1] [Val.atom (.num 1)] [] [Val.noneV])
      = .done (.ok (Val.atom (.num 1))) :=
  (none_token_treated_as_eof listParser listSem extOne Val.noneV
      (Config.mk [0, 1] [Val.atom (.num 1)] [] [Val.noneV]) 1 _ rfl rfl rfl).1
    rfl rfl (Val.atom (.num 1)) rfl

/-! ### Claim C8: idempotence of the closure -/

theorem foldl_dedup_mem_mono {α : Type} [DecidableEq α] (xs : List α) (acc : List α)
    (y : α) (hy : y ∈ acc) :
    y ∈ xs.foldl (fun acc x => if x ∈ acc then acc else acc ++ [x]) acc := by
  induction xs generalizing acc with
  | nil => exact hy
  | cons x rest ih =>
    simp only [List.foldl_cons]
    apply ih
    by_cases hx : x ∈ acc
    · rw [if_pos hx]; exact hy
    · rw [if_neg hx]; exact List.mem_append_left _ hy

theorem foldl_dedup_extends {α : Type} [DecidableEq α] (xs : List α) (acc : List α) :
    acc <+: xs.foldl (fun acc x => if x ∈ acc then acc else acc ++ [x]) acc := by
  induction xs generalizing acc with
  | nil => exact List.prefix_refl acc
  | cons x rest ih =>
    simp only [List.foldl_cons]
    by_cases hx : x ∈ acc
    · rw [if_pos hx]; exact ih acc
    · rw [if_neg hx]
      exact List.IsPrefix.trans (List.prefix_append acc [x]) (ih (acc ++ [x]))

theorem foldl_dedup_mem_self {α : Type} [DecidableEq α] (xs : List α) (acc : List α)
    (y : α) (hy : y ∈ xs) :
    y ∈ xs.foldl (fun acc x => if x ∈ acc then acc else acc ++ [x]) acc := by
  induction xs generalizing acc with
  | nil => cases hy
  | cons x rest ih =>
    simp only [List.foldl_cons]
    rcases List.mem_cons.mp hy with h1 | h2
    · subst h1
      apply foldl_dedup_mem_mono
      by_cases hx : y ∈ acc
      · rw [if_pos hx]; exact hx
      · rw [if_neg hx]; exact List.mem_append_right _ (List.mem_singleton_self y)
    · exact ih _ h2

theorem foldl_dedup_no_new {α : Type} [DecidableEq α] (xs : List α) (acc : List α)
    (h : ∀ y ∈ xs, y ∈ acc) :
    xs.foldl (fun acc x => if x ∈ acc then acc else acc ++ [x]) acc = acc := by
  induction xs with
  | nil => rfl
  | cons x rest ih =>
    simp only [List.foldl_cons]
    rw [if_pos (h x (List.mem_cons_self x rest))]
    exact ih (fun y hy => h y (List.mem_cons_of_mem x hy))

theorem closeAux_extends (expand : Item → List Item) (fuel : Nat) :
    ∀ (l : List Item) (i : Nat) (out : List Item),
      closeAux expand fuel l i = some out → l <+: out := by
  induction fuel with
  | zero =>
    intro l i out h
    simp only [closeAux] at h
    split at h
    · cases h
    · cases h; exact List.prefix_refl l
  | succ fuel ih =>
    intro l i out h
    simp only [closeAux] at h
    split at h
    · exact List.IsPrefix.trans (foldl_dedup_extends _ _) (ih _ _ _ h)
    · cases h; exact List.prefix_refl l

theorem closeAux_closed_inv (expand : Item → List Item) (fuel : Nat) :
    ∀ (l : List Item) (i : Nat) (out : List Item),
      closeAux expand fuel l i = some out →
      (∀ j, j < i → ∀ x, l[j]? = some x → ∀ y ∈ expand x, y ∈ out) →
      ∀ x ∈ out, ∀ y ∈ expand x, y ∈ out := by
  induction fuel with
  | zero =>
    intro l i out h hinv
    simp only [closeAux] at h
    split at h
    · cases h
    · cases h
      rename_i hge
      intro x hx y hy
      obtain ⟨j, hget⟩ := List.mem_iff_getElem?.mp hx
      obtain ⟨hj, _⟩ := List.getElem?_eq_some_iff.mp hget
      exact hinv j (by omega) x hget y hy
  | succ fuel ih =>
    intro l i out h hinv
    simp only [closeAux] at h
    split at h
    · rename_i hlt
      apply ih _ _ _ h
      intro j hj x hget y hy
      obtain ⟨t, ht⟩ := foldl_dedup_extends (expand l[i]) l
      by_cases hji : j < i
      · rw [← ht, List.getElem?_append_left (by omega)] at hget
        exact hinv j hji x hget y hy
      · have hj_eq : j = i := by omega
        subst hj_eq
        rw [← ht, List.getElem?_append_left hlt] at hget
        have hx_eq : x = l[j] := by
          obtain ⟨h1, h2⟩ := List.getElem?_eq_some_iff.mp hget
          exact h2.symm
        subst hx_eq
        have hy2 : y ∈ (expand l[j]).foldl
            (fun acc x => if x ∈ acc then acc else acc ++ [x]) l :=
          foldl_dedup_mem_self _ _ _ hy
        exact (closeAux_extends expand fuel _ _ _ h).subset hy2
    · cases h
      rename_i hge
      intro x hx y hy
      obtain ⟨j, hget⟩ := List.mem_iff_getElem?.mp hx
      obtain ⟨hj, _⟩ := List.getElem?_eq_some_iff.mp hget
      exact hinv j (by omega) x hget y hy

theorem closeAux_of_closed (expand : Item → List Item) (fuel : Nat) :
    ∀ (l : List Item) (i : Nat) (out : List Item),
      (∀ x ∈ l, ∀ y ∈ expand x, y ∈ l) →
      closeAux expand fuel l i = some out → out = l := by
  induction fuel with
  | zero =>
    intro l i out _ h
    simp only [closeAux] at h
    split at h
    · cases h
    · cases h; rfl
  | succ fuel ih =>
    intro l i out hcl h
    simp only [closeAux] at h
    split at h
    · rename_i hlt
      rw [foldl_dedup_no_new _ _ (fun y hy => hcl l[i] (List.getElem_mem hlt) y hy)] at h
      exact ih _ _ _ hcl h
    · cases h; rfl

/-- C8: closure is idempotent.  Whenever the closure worklist loop finishes on
    an item list I with result J, running it again on J returns J itself, so
    in particular the two results are equal as item sets. -/
theorem closure_idempotent (expand : Item → List Item) (fuel1 fuel2 : Nat)
    (I J K : List Item)
    (h1 : closeItemset expand fuel1 I = some J)
    (h2 : closeItemset expand fuel2 J = some K) :
    K = J ∧ (∀ x : Item, x ∈ K ↔ x ∈ J) := by
  have hclosed : ∀ x ∈ J, ∀ y ∈ expand x, y ∈ J :=
    closeAux_closed_inv expand fuel1 I 0 J h1
      (fun j hj => absurd hj (Nat.not_lt_zero j))
  have hK : K = J := closeAux_of_closed expand fuel2 J 0 K hclosed h2
  exact ⟨hK, fun x => by rw [hK]⟩

/-- C8, witness: the closure of the start item set of the augmented doctest
    grammar is a fixed point of a second closure pass. -/
theorem closure_idempotent_witness :
    ∃ J K, closeItemset listExpand 40 [listStartItem] = some J ∧
      closeItemset listExpand 40 J = some K ∧
      K = J ∧ (∀ x : Item, x ∈ K ↔ x ∈ J) :=
  ⟨_, _, rfl, rfl, closure_idempotent listExpand 40 40 [listStartItem] _ _ rfl rfl⟩

/-! ### Claim C6: construction fails exactly on the empty grammar -/

theorem sameItemset_mem {l1 l2 : List Item} (h : sameItemset l1 l2 = true) {x : Item}
    (hx : x ∈ l1) : x ∈ l2 := by
  unfold sameItemset at h
  rw [Bool.and_eq_true] at h
  obtain ⟨h1, _⟩ := h
  simpa using List.all_eq_true.mp h1 x hx

theorem advanceItems_mem {l : List Item} {it : Item} (h : it ∈ l) {s : Sym}
    (hnt : it.next_token = some s) :
    Item.mk it.rule (it.index + 1) it.lookahead ∈ advanceItems l s := by
  unfold advanceItems
  exact List.mem_map_of_mem _ (List.mem_filter.mpr ⟨h, by simp [hnt]⟩)

theorem processSyms_itemsets_stable (expand : Item → List Item) (fuel : Nat) :
    ∀ (syms : List Sym) (sts : List StateT) (i : Nat) (out : List StateT),
      processSyms expand fuel syms sts i = some out →
      ∀ (j : Nat) (st : StateT), sts[j]? = some st →
        ∃ st2 : StateT, out[j]? = some st2 ∧ st2.itemset = st.itemset := by
  intro syms
  induction syms with
  | nil =>
    intro sts i out h j st hj
    cases h
    exact ⟨st, hj, rfl⟩
  | cons X rest ih =>
    intro sts i out h j st hj
    simp only [processSyms] at h
    split at h
    · cases h
    · rename_i st0 hi
      split at h
      · cases h
      · rename_i newIS hgc
        split at h
        · exact ih sts i out h j st hj
        · rename_i hne
          have hilt : i < sts.length := by
            rcases List.getElem?_eq_some_iff.mp hi with ⟨hh, _⟩
            exact hh
          split at h
          · rename_i j0 hfi
            by_cases hij : i = j
            · subst hij
              have hst : st = st0 := by
                rw [hi] at hj; injection hj with hj2; exact hj2.symm
              obtain ⟨st2, h2, h3⟩ := ih _ _ _ h i
                { st0 with goto := updateA st0.goto X j0 }
                (List.getElem?_set_self hilt)
              exact ⟨st2, h2, by rw [h3, hst]⟩
            · obtain ⟨st2, h2, h3⟩ := ih _ _ _ h j st
                (by rw [List.getElem?_set_ne hij]; exact hj)
              exact ⟨st2, h2, h3⟩
          · rename_i hfi
            have hjlt : j < sts.length := by
              rcases List.getElem?_eq_some_iff.mp hj with ⟨hh, _⟩
              exact hh
            by_cases hij : i = j
            · subst hij
              have hst : st = st0 := by
                rw [hi] at hj; injection hj with hj2; exact hj2.symm
              obtain ⟨st2, h2, h3⟩ := ih _ _ _ h i
                { st0 with goto := updateA st0.goto X sts.length }
                (by
                  rw [List.getElem?_append_left (by simpa using hilt)]
                  exact List.getElem?_set_self hilt)
              exact ⟨st2, h2, by rw [h3, hst]⟩
            · obtain ⟨st2, h2, h3⟩ := ih _ _ _ h j st
                (by
                  rw [List.getElem?_append_left (by simpa using hjlt)]
                  rw [List.getElem?_set_ne hij]
                  exact hj)
              exact ⟨st2, h2, h3⟩

theorem processSyms_establishes (expand : Item → List Item) (fuel : Nat) (target : Item) :
    ∀ (syms : List Sym) (sts : List StateT) (i : Nat) (out : List StateT)
      (X : Sym) (st : StateT),
      processSyms expand fuel syms sts i = some out →
      X ∈ syms → sts[i]? = some st →
      (∀ res, gotoClose expand fuel st.itemset X = some res → target ∈ res) →
      ∃ (j : Nat) (st2 : StateT), out[j]? = some st2 ∧ target ∈ st2.itemset := by
  intro syms
  induction syms with
  | nil =>
    intro sts i out X st h hX hst hres
    cases hX
  | cons Y rest ih =>
    intro sts i out X st h hX hst hres
    simp only [processSyms] at h
    split at h
    · cases h
    · rename_i st0 hi
      have hse : st0 = st := by rw [hi] at hst; injection hst
      subst hse
      split at h
      · cases h
      · rename_i newIS hgc
        rcases List.mem_cons.mp hX with hXY | hXrest
        · subst hXY
          have htar : target ∈ newIS := hres newIS hgc
          have hilt : i < sts.length := (List.getElem?_eq_some_iff.mp hi).1
          split at h
          · rename_i hemp
            rw [List.isEmpty_iff] at hemp
            rw [hemp] at htar
            cases htar
          · split at h
            · rename_i j0 hfi
              obtain ⟨hj0lt, hp, _⟩ := List.findIdx?_eq_some_iff_getElem.mp hfi
              have htar2 : target ∈ (sts[j0]).itemset := sameItemset_mem hp htar
              by_cases hij : i = j0
              · subst hij
                have hgi : sts[i] = st0 := by
                  have := List.getElem?_eq_getElem hilt
                  rw [hi] at this; injection this with h2; exact h2.symm
                obtain ⟨st2, h2, h3⟩ :=
                  processSyms_itemsets_stable expand fuel rest _ i out h i
                    { st0 with goto := updateA st0.goto X i }
                    (List.getElem?_set_self hilt)
                refine ⟨i, st2, h2, ?_⟩
                rw [h3]
                show target ∈ st0.itemset
                rw [← hgi]
                exact htar2
              · obtain ⟨st2, h2, h3⟩ :=
                  processSyms_itemsets_stable expand fuel rest _ i out h j0 sts[j0]
                    (by
                      rw [List.getElem?_set_ne hij]
                      exact List.getElem?_eq_getElem hj0lt)
                exact ⟨j0, st2, h2, by rw [h3]; exact htar2⟩
            · rename_i hfi
              have hcat := List.getElem?_concat_length
                (sts.set i { st0 with goto := updateA st0.goto X sts.length })
                (StateT.mk newIS [] [])
              rw [List.length_set] at hcat
              obtain ⟨st2, h2, h3⟩ :=
                processSyms_itemsets_stable expand fuel rest _ i out h sts.length
                  (StateT.mk newIS [] []) hcat
              exact ⟨sts.length, st2, h2, by rw [h3]; exact htar⟩
        · have hilt : i < sts.length := (List.getElem?_eq_some_iff.mp hi).1
          split at h
          · exact ih sts i out X st0 h hXrest hi hres
          · split at h
            · rename_i j0 hfi
              exact ih _ i out X { st0 with goto := updateA st0.goto Y j0 } h hXrest
                (List.getElem?_set_self hilt) hres
            · rename_i hfi
              exact ih _ i out X { st0 with goto := updateA st0.goto Y sts.length } h hXrest
                (by
                  rw [List.getElem?_append_left (by simpa using hilt)]
                  exact List.getElem?_set_self hilt) hres

theorem buildStates_itemsets_stable (expand : Item → List Item) (fuel0 : Nat)
    (syms : List Sym) (fuel : Nat) :
    ∀ (sts : List StateT) (i : Nat) (out : List StateT),
      buildStates expand fuel0 syms fuel sts i = some out →
      ∀ (j : Nat) (st : StateT), sts[j]? = some st →
        ∃ st2 : StateT, out[j]? = some st2 ∧ st2.itemset = st.itemset := by
  induction fuel with
  | zero =>
    intro sts i out h j st hj
    simp only [buildStates] at h
    split at h
    · cases h
    · cases h; exact ⟨st, hj, rfl⟩
  | succ fuel ih =>
    intro sts i out h j st hj
    simp only [buildStates] at h
    split at h
    · split at h
      · cases h
      · rename_i sts2 hps
        obtain ⟨st2, h2, h3⟩ :=
          processSyms_itemsets_stable expand fuel0 syms sts i sts2 hps j st hj
        obtain ⟨st3, h4, h5⟩ := ih sts2 (i+1) out h j st2 h2
        exact ⟨st3, h4, by rw [h5, h3]⟩
    · cases h; exact ⟨st, hj, rfl⟩

theorem buildStates_start_successor (expand : Item → List Item) (fuel0 : Nat)
    (syms : List Sym) (fuel : Nat) (s0st : StateT) (out : List StateT)
    (X : Sym) (target : Item)
    (h : buildStates expand fuel0 syms fuel [s0st] 0 = some out)
    (hX : X ∈ syms)
    (hres : ∀ res, gotoClose expand fuel0 s0st.itemset X = some res → target ∈ res) :
    ∃ (j : Nat) (st2 : StateT), out[j]? = some st2 ∧ target ∈ st2.itemset := by
  cases fuel with
  | zero =>
    simp only [buildStates] at h
    split at h
    · cases h
    · rename_i hcond
      exact absurd (by simp : (0 : Nat) < [s0st].length) hcond
  | succ fuel =>
    simp only [buildStates] at h
    split at h
    · split at h
      · cases h
      · rename_i sts2 hps
        obtain ⟨j, st2, h2, h3⟩ :=
          processSyms_establishes expand fuel0 target syms [s0st] 0 sts2 X s0st
            hps hX rfl hres
        obtain ⟨st3, h4, h5⟩ :=
          buildStates_itemsets_stable expand fuel0 syms fuel sts2 1 out h j st2 h2
        exact ⟨j, st3, h4, by rw [h5]; exact h3⟩
    · rename_i hcond
      exact absurd (by simp : (0 : Nat) < [s0st].length) hcond

theorem fillItems_acc_mono (aug : Grammar) (first : List Sym → List (List Sym))
    (k : Nat) (sid : Nat) :
    ∀ (items : List Item) (amap : List (List Sym × Option Rule)) (x : Nat)
      (m : List (List Sym × Option Rule)) (acc2 : Option Nat),
      fillItems aug first k sid items amap (some x) = .ok (m, acc2) → acc2.isSome := by
  intro items
  induction items with
  | nil =>
    intro amap x m acc2 h
    cases h
    rfl
  | cons item rest ih =>
    intro amap x m acc2 h
    simp only [fillItems] at h
    split at h
    · split at h
      · split at h
        · cases h
        · exact ih _ sid _ _ h
      · split at h
        · cases h
        · exact ih _ _ _ _ h
    · split at h
      · split at h
        · cases h
        · exact ih _ _ _ _ h
      · exact ih _ _ _ _ h

theorem fillItems_sets_acc (aug : Grammar) (first : List Sym → List (List Sym))
    (k : Nat) (sid : Nat) (target : Item)
    (hnt : target.next_token = none) (hleft : target.rule.left = "") :
    ∀ (items : List Item) (amap : List (List Sym × Option Rule)) (acc : Option Nat)
      (m : List (List Sym × Option Rule)) (acc2 : Option Nat),
      target ∈ items →
      fillItems aug first k sid items amap acc = .ok (m, acc2) → acc2.isSome := by
  intro items
  induction items with
  | nil =>
    intro amap acc m acc2 hmem
    cases hmem
  | cons item rest ih =>
    intro amap acc m acc2 hmem h
    simp only [fillItems] at h
    rcases List.mem_cons.mp hmem with he | hm
    · subst he
      split at h
      · split at h
        · split at h
          · cases h
          · exact fillItems_acc_mono aug first k sid rest _ sid m acc2 h
        · rename_i hne
          exact absurd hleft hne
      · rename_i nt hsome
        rw [hnt] at hsome
        cases hsome
    · split at h
      · split at h
        · split at h
          · cases h
          · exact ih _ _ _ _ hm h
        · split at h
          · cases h
          · exact ih _ _ _ _ hm h
      · split at h
        · split at h
          · cases h
          · exact ih _ _ _ _ hm h
        · exact ih _ _ _ _ hm h

theorem fillStates_acc_mono (aug : Grammar) (first : List Sym → List (List Sym))
    (k : Nat) :
    ∀ (sts : List StateT) (sid : Nat) (x : Nat) (out : List StateT) (accF : Option Nat),
      fillStates aug first k sts sid (some x) = .ok (out, accF) → accF.isSome := by
  intro sts
  induction sts with
  | nil =>
    intro sid x out accF h
    cases h
    rfl
  | cons st rest ih =>
    intro sid x out accF h
    simp only [fillStates] at h
    split at h
    · cases h
    · rename_i amap acc2 hfi
      have hs2 := fillItems_acc_mono aug first k sid st.itemset st.action x amap acc2 hfi
      obtain ⟨y, hy⟩ := Option.isSome_iff_exists.mp hs2
      subst hy
      split at h
      · cases h
      · rename_i sts2 acc3 hfs
        cases h
        exact ih _ _ _ _ hfs

theorem fillStates_sets_acc (aug : Grammar) (first : List Sym → List (List Sym))
    (k : Nat) (target : Item)
    (hnt : target.next_token = none) (hleft : target.rule.left = "") :
    ∀ (sts : List StateT) (sid : Nat) (acc : Option Nat)
      (out : List StateT) (accF : Option Nat),
      (∃ st ∈ sts, target ∈ st.itemset) →
      fillStates aug first k sts sid acc = .ok (out, accF) → accF.isSome := by
  intro sts
  induction sts with
  | nil =>
    intro sid acc out accF hex
    obtain ⟨st, hst, _⟩ := hex
    cases hst
  | cons st rest ih =>
    intro sid acc out accF hex h
    simp only [fillStates] at h
    split at h
    · cases h
    · rename_i amap acc2 hfi
      split at h
      · cases h
      · rename_i sts2 acc3 hfs
        cases h
        obtain ⟨st0, hst0, htar⟩ := hex
        rcases List.mem_cons.mp hst0 with he | hm
        · subst he
          have hs2 := fillItems_sets_acc aug first k sid target hnt hleft
            st0.itemset st0.action acc amap acc2 htar hfi
          obtain ⟨y, hy⟩ := Option.isSome_iff_exists.mp hs2
          subst hy
          exact fillStates_acc_mono aug first k rest (sid+1) y _ _ hfs
        · exact ih _ _ _ _ ⟨st0, hm, htar⟩ hfs

theorem add_action_error_shape {k : Nat} {amap : List (List Sym × Option Rule)}
    {la : List Sym} {act : Option Rule} {item : Item} {e : BuildErr}
    (h : add_action k amap la act item = .error e) :
    ∃ old, e = .invalidGrammar (conflictMessage k old act item) := by
  unfold add_action at h
  split at h
  · rename_i old hl
    split at h
    · injection h with h2
      exact ⟨old, h2.symm⟩
    · cases h
  · cases h

theorem addShifts_error_shape {k : Nat} {item : Item} {e : BuildErr} :
    ∀ {las : List (List Sym)} {amap : List (List Sym × Option Rule)},
      addShifts k item las amap = .error e →
      ∃ old, e = .invalidGrammar (conflictMessage k old none item) := by
  intro las
  induction las with
  | nil =>
    intro amap h
    cases h
  | cons la rest ih =>
    intro amap h
    simp only [addShifts] at h
    split at h
    · rename_i e0 ha
      injection h with h2
      subst h2
      exact add_action_error_shape ha
    · exact ih h

theorem fillItems_error_shape {aug : Grammar} {first : List Sym → List (List Sym)}
    {k : Nat} {sid : Nat} {e : BuildErr} :
    ∀ {items : List Item} {amap : List (List Sym × Option Rule)} {acc : Option Nat},
      fillItems aug first k sid items amap acc = .error e →
      ∃ old act item, e = .invalidGrammar (conflictMessage k old act item) := by
  intro items
  induction items with
  | nil =>
    intro amap acc h
    cases h
  | cons item rest ih =>
    intro amap acc h
    simp only [fillItems] at h
    split at h
    · split at h
      · split at h
        · rename_i e0 ha
          injection h with h2
          subst h2
          obtain ⟨old, ho⟩ := add_action_error_shape ha
          exact ⟨old, none, item, ho⟩
        · exact ih h
      · split at h
        · rename_i e0 ha
          injection h with h2
          subst h2
          obtain ⟨old, ho⟩ := add_action_error_shape ha
          exact ⟨old, some item.rule, item, ho⟩
        · exact ih h
    · split at h
      · split at h
        · rename_i e0 ha
          injection h with h2
          subst h2
          obtain ⟨old, ho⟩ := addShifts_error_shape ha
          exact ⟨old, none, item, ho⟩
        · exact ih h
      · exact ih h

theorem fillStates_error_shape {aug : Grammar} {first : List Sym → List (List Sym)}
    {k : Nat} {e : BuildErr} :
    ∀ {sts : List StateT} {sid : Nat} {acc : Option Nat},
      fillStates aug first k sts sid acc = .error e →
      ∃ old act item, e = .invalidGrammar (conflictMessage k old act item) := by
  intro sts
  induction sts with
  | nil =>
    intro sid acc h
    cases h
  | cons st rest ih =>
    intro sid acc h
    simp only [fillStates] at h
    split at h
    · rename_i e0 ha
      injection h with h2
      subst h2
      exact fillItems_error_shape ha
    · split at h
      · rename_i e0 ha
        injection h with h2
        subst h2
        exact ih ha
      · cases h

theorem root_eq_none_iff (g : Grammar) : g.root = none ↔ g.rules = [] := by
  unfold Grammar.root
  cases g.rules <;> simp

theorem collect_mono (rules : List Rule) :
    ∀ (acc : List Sym) (x : Sym), x ∈ acc →
      x ∈ rules.foldl (fun acc r => acc ++ [r.left] ++ r.right) acc := by
  induction rules with
  | nil =>
    intro acc x hx
    exact hx
  | cons r rest ih =>
    intro acc x hx
    simp only [List.foldl_cons]
    exact ih _ x (by simp [hx])

theorem augRule_root_mem_symbolList (g : Grammar) (r : Sym) :
    r ∈ (Grammar.mk (augRule r :: g.rules)).symbolList := by
  unfold Grammar.symbolList
  rw [List.mem_dedup]
  simp only [List.foldl_cons]
  exact collect_mono g.rules _ r (by simp [augRule])

theorem conflictMessage_ne_empty (k : Nat) (old act : Option Rule) (item : Item) :
    conflictMessage k old act item ≠ emptyGrammarMsg := by
  intro hc
  have hd : (conflictMessage k old act item).data.head? = emptyGrammarMsg.data.head? := by
    rw [hc]
  have hL : (conflictMessage k old act item).data.head? = some 'L' := rfl
  have hT : emptyGrammarMsg.data.head? = some 'T' := rfl
  rw [hL, hT] at hd
  exact absurd hd (by decide)

/-- C6: parser construction fails iff the grammar has zero rules, in which
    case it raises the InvalidGrammar empty-grammar error; every other
    failure of a completed construction is an LR(k) conflict (so a non-empty
    LR(k) grammar always yields the parser tables).  The internal
    accepting-state assert can never fire: the successor of the start state
    on the root symbol always contains the final augmented item. -/
theorem construction_fails_iff_empty (fuel : Nat) (g : Grammar) (k : Nat)
    (firstOf : Grammar → Nat → List Sym → List (List Sym))
    {r : Except BuildErr (List StateT × Nat)}
    (h : mkTables fuel g k firstOf = some r) :
    (g.rules = [] ↔ r = .error (.invalidGrammar emptyGrammarMsg)) ∧
    (∀ e, r = .error e → e = .invalidGrammar emptyGrammarMsg ∨
      ∃ old act item, e = .invalidGrammar (conflictMessage k old act item)) := by
  cases hroot : g.root with
  | none =>
    have hempty : g.rules = [] := (root_eq_none_iff g).mp hroot
    simp only [mkTables, hroot] at h
    injection h with h2
    subst h2
    constructor
    · exact ⟨fun _ => rfl, fun _ => hempty⟩
    · intro e he
      injection he with h3
      exact Or.inl h3.symm
  | some r0 =>
    have hnonempty : g.rules ≠ [] := by
      intro hc
      rw [(root_eq_none_iff g).mpr hc] at hroot
      cases hroot
    simp only [mkTables, hroot] at h
    split at h
    · cases h
    · rename_i s0 hs0
      split at h
      · cases h
      · rename_i sts hbs
        have hstart : Item.mk (augRule r0) 0 [] ∈ s0 :=
          (closeAux_extends _ fuel _ _ _ hs0).subset (List.mem_singleton_self _)
        have htargetin : ∃ (j : Nat) (st2 : StateT), sts[j]? = some st2 ∧
            Item.mk (augRule r0) 1 [] ∈ st2.itemset := by
          apply buildStates_start_successor _ fuel _ fuel (StateT.mk s0 [] []) sts r0 _
            hbs (augRule_root_mem_symbolList g r0)
          intro res hres
          have hadv : Item.mk (augRule r0) 1 [] ∈ advanceItems s0 r0 :=
            advanceItems_mem hstart rfl
          exact (closeAux_extends _ fuel _ _ _ hres).subset hadv
        split at h
        · rename_i e0 hfe
          injection h with h2
          subst h2
          obtain ⟨old, act, item, ho⟩ := fillStates_error_shape hfe
          subst ho
          constructor
          · constructor
            · intro hc
              exact absurd hc hnonempty
            · intro hc
              injection hc with hc2
              injection hc2 with hc3
              exact absurd hc3 (conflictMessage_ne_empty k old act item)
          · intro e he
            injection he with h3
            exact Or.inr ⟨old, act, item, h3.symm⟩
        · rename_i sts2 accState hfo
          injection h with h2
          subst h2
          constructor
          · constructor
            · intro hc
              exact absurd hc hnonempty
            · intro hc
              cases hc
          · intro e he
            cases he
        · rename_i p hfo
          obtain ⟨j, st2, hj, htar⟩ := htargetin
          have hsome := fillStates_sets_acc _ _ k (Item.mk (augRule r0) 1 []) rfl rfl
            sts 0 none p none ⟨st2, List.getElem?_mem hj, htar⟩ hfo
          cases hsome

/-- C6, witness: the doctest grammar is non-empty, its construction completes,
    and the characterization confirms the result is not the empty-grammar
    error. -/
theorem construction_fails_iff_empty_witness :
    ∃ r : Except BuildErr (List StateT × Nat),
      mkTables 40 listGrammar 0 (mkFirst 40) = some r ∧
      (listGrammar.rules = [] ↔ r = .error (.invalidGrammar emptyGrammarMsg)) :=
  ⟨_, rfl, (construction_fails_iff_empty 40 listGrammar 0 (mkFirst 40) rfl).1⟩

/-! ### Claim C2: termination of the parse loop -/

/-- C2, counterexample.  The claim makes the success condition an iff: the
    parse should succeed whenever at some point the buffer is empty, the
    state is accepting and exactly one value is on the value stack.  Parsing
    ("item", "bogus") with the doctest parser reaches exactly such a
    configuration after three iterations, yet the parse then raises an
    unexpected-token error on "bogus". -/
theorem parse_accept_condition_not_sufficient :
    (∃ c2, iterateSteps listParser listSem extOne Val.noneV 3 (initConfig 0 demoIn) = some c2 ∧
      c2.buf = [] ∧ c2.stack.getLast? = some listParser.accepting ∧ c2.asts.length = 1) ∧
    run listParser listSem extOne Val.noneV 20 (initConfig 0 demoIn)
      = some (.error (.unexpectedSymbol (Val.atom (.str "bogus")))) := by
  exact ⟨⟨_, rfl, rfl, rfl, rfl⟩, rfl⟩

theorem run_ok_iff_reachable_done (P : BoundParser)
    (sem : Rule → Val → List Val → Val) (ext : Val → Val) (ctx : Val)
    (fuel : Nat) (c0 : Config) (v : Val) :
    run P sem ext ctx fuel c0 = some (.ok v) ↔
      ∃ n, n < fuel ∧ ∃ c2, iterateSteps P sem ext ctx n c0 = some c2 ∧
        step P sem ext ctx c2 = .done (.ok v) := by
  induction fuel generalizing c0 with
  | zero =>
    simp [run]
  | succ fuel ih =>
    cases hs : step P sem ext ctx c0 with
    | done r =>
      simp only [run, hs]
      constructor
      · intro h
        refine ⟨0, Nat.succ_pos fuel, c0, rfl, ?_⟩
        rw [hs]
        exact congrArg StepRes.done (by injection h)
      · rintro ⟨n, hn, c2, hit, hstep⟩
        cases n with
        | zero =>
          cases hit
          rw [hs] at hstep
          injection hstep with h2
          rw [h2]
        | succ m =>
          simp only [iterateSteps, hs] at hit
          cases hit
    | next c2 =>
      simp only [run, hs]
      rw [ih c2]
      constructor
      · rintro ⟨n, hn, c3, hit, hstep⟩
        exact ⟨n + 1, Nat.succ_lt_succ hn, c3, by simp [iterateSteps, hs, hit], hstep⟩
      · rintro ⟨n, hn, c3, hit, hstep⟩
        cases n with
        | zero =>
          cases hit
          rw [hs] at hstep
          cases hstep
        | succ m =>
          simp only [iterateSteps, hs] at hit
          exact ⟨m, by omega, c3, hit, hstep⟩

theorem step_done_ok_iff (P : BoundParser)
    (sem : Rule → Val → List Val → Val) (ext : Val → Val) (ctx : Val)
    (c2 : Config) (v : Val) :
    step P sem ext ctx c2 = .done (.ok v) ↔
      ∃ st, c2.stack.getLast? = some P.accepting ∧
        P.states[P.accepting]? = some st ∧
        get_action st.action_match (c2.buf.map ext) = .ok none ∧
        (getShiftToken c2).1 = Val.noneV ∧
        c2.asts = [v] := by
  constructor
  · intro h
    simp only [step] at h
    repeat' split at h
    all_goals cases h
    rename_i top hlast o1 st2 hst2 o2 hact2 hnone hacc lv hasts
    subst hacc
    exact ⟨st2, hlast, hst2, hact2, hnone, hasts⟩
  · rintro ⟨st, htop, hst, hact, hnone, hasts⟩
    simp only [step, htop, hst, hact]
    rw [if_pos hnone, if_pos trivial, hasts]

/-- C2, amended: the parse terminates successfully, returning v, iff after
    some number of loop iterations it reaches a configuration where the
    selected action is shift, the token fetch returns None (input exhausted,
    or a None token at the front of the stream), the current state is the
    accepting state, and the value stack holds exactly the value v.  When the
    selected action is shift and the fetch returns None while the current
    state is not the accepting one, the loop raises the premature-end
    ParsingError. -/
theorem parse_success_characterization (P : BoundParser)
    (sem : Rule → Val → List Val → Val) (ext : Val → Val) (ctx : Val)
    (fuel : Nat) (c0 : Config) (v : Val) :
    (run P sem ext ctx fuel c0 = some (.ok v) ↔
      ∃ n, n < fuel ∧ ∃ c2 st, iterateSteps P sem ext ctx n c0 = some c2 ∧
        c2.stack.getLast? = some P.accepting ∧
        P.states[P.accepting]? = some st ∧
        get_action st.action_match (c2.buf.map ext) = .ok none ∧
        (getShiftToken c2).1 = Val.noneV ∧
        c2.asts = [v]) ∧
    (∀ c2 sid st, c2.stack.getLast? = some sid → P.states[sid]? = some st →
      get_action st.action_match (c2.buf.map ext) = .ok none →
      (getShiftToken c2).1 = Val.noneV → sid ≠ P.accepting →
      step P sem ext ctx c2 = .done (.error .prematureEnd)) := by
  constructor
  · constructor
    · intro h
      obtain ⟨n, hn, c2, hit, hstep⟩ :=
        (run_ok_iff_reachable_done P sem ext ctx fuel c0 v).mp h
      obtain ⟨st, h1, h2, h3, h4, h5⟩ :=
        (step_done_ok_iff P sem ext ctx c2 v).mp hstep
      exact ⟨n, hn, c2, st, hit, h1, h2, h3, h4, h5⟩
    · rintro ⟨n, hn, c2, st, hit, h1, h2, h3, h4, h5⟩
      exact (run_ok_iff_reachable_done P sem ext ctx fuel c0 v).mpr
        ⟨n, hn, c2, hit,
          (step_done_ok_iff P sem ext ctx c2 v).mpr ⟨st, h1, h2, h3, h4, h5⟩⟩
  · intro c2 sid st hlast hstate hact hnone hacc
    simp only [step, hlast, hstate, hact]
    rw [if_pos hnone, if_neg hacc]

/-- C2, witness for the amended claim: the successful parse of a single
    "item" token is reflected into the reachability conditions (selected
    action shift, fetch None, accepting state, single value) by the
    characterization. -/
theorem parse_success_characterization_witness :
    ∃ n, n < 20 ∧ ∃ c2 st, iterateSteps listParser listSem extOne Val.noneV n
        (initConfig 0 [Val.atom (.str "item")]) = some c2 ∧
      c2.stack.getLast? = some listParser.accepting ∧
      listParser.states[listParser.accepting]? = some st ∧
      get_action st.action_match (c2.buf.map extOne) = .ok none ∧
      (getShiftToken c2).1 = Val.noneV ∧
      c2.asts = [Val.atom (.num 1)] :=
  (parse_success_characterization listParser listSem extOne Val.noneV 20
      (initConfig 0 [Val.atom (.str "item")]) (Val.atom (.num 1))).1.mp rfl

/-- C5, witness: the amended claim applied to the doctest grammar. -/
theorem augmentation_fresh_and_rule_zero_witness :
    (Grammar.mk (augRule "list" :: listGrammar.rules)).rules.head? = some (augRule "list") ∧
    (augRule "list").left = "" ∧
    (augRule "list").left ∉ listGrammar.symbolList ∧
    (Grammar.mk (augRule "list" :: listGrammar.rules)).is_terminal (augRule "list").left = false :=
  augmentation_fresh_and_rule_zero listGrammar "list" rfl (by decide)

end Limecc
